import Mathlib

/-!
Verification of the proquints encoder (`src/lib.rs` of the `proquints` crate).

The crate encodes even-length byte sequences as "proquints": pronounceable
5-character syllables (consonant-vowel-consonant-vowel-consonant), one per
16-bit big-endian block, joined by a separator character.

Modelling conventions:
* Bytes (`u8`) and `u16` values are `Nat`; byte lists carry the implicit
  invariant that entries are `< 256`, enforced by hypotheses where needed.
* Rust panics (failed `assert!`, arithmetic underflow of `usize` subtraction,
  index out of bounds) are modelled by the `Fault` type; `proquints_buf`
  returns an `EncodeResult` that on fault carries the buffer contents at the
  moment of the panic, so that "no bytes were written" is expressible.
* `String`s are modelled as their lists of ASCII byte values.
-/

namespace Proquints

/-- `static CONSONANTS: [u8; 16]` (lib.rs lines 12-14): the byte values of
`b d f g h j k l m n p r s t v z`. -/
def CONSONANTS : List Nat :=
  [98, 100, 102, 103, 104, 106, 107, 108, 109, 110, 112, 114, 115, 116, 118, 122]

/-- `static VOWELS: [u8; 4]` (lib.rs line 16): the byte values of `a i o u`. -/
def VOWELS : List Nat := [97, 105, 111, 117]

/-- The ways the Rust code can panic: a failed `assert!`, `usize` subtraction
underflow (a panic in debug builds), or a slice index out of bounds. -/
inductive Fault where
  | assertFailed
  | underflow
  | outOfBounds
deriving DecidableEq, Repr

/-- Result of `proquints_buf`: success carries the final buffer and the write
index `i` (the returned view is `buf[..i]`); a fault carries the buffer
contents at the moment of the panic. -/
inductive EncodeResult where
  | ok (buf : List Nat) (i : Nat)
  | fault (f : Fault) (buf : List Nat)
deriving DecidableEq, Repr

/-- `pub const fn output_length(input_length: usize) -> usize` (lib.rs 65-69):
`((input_length / 2) * 6) - 1`.  The `usize` subtraction underflows when
`(input_length / 2) * 6 = 0`; that invalid case is modelled as `none`. -/
def output_length (input_length : Nat) : Option Nat :=
  if (input_length / 2) * 6 = 0 then none else some ((input_length / 2) * 6 - 1)

/-- Sequential indexed stores `buf[i] = v; buf[i+1] = v'; ...` with Rust's
bounds check on each store; on an out-of-bounds index the error carries the
buffer as mutated so far. -/
def writeBytes : List Nat → Nat → List Nat → Except (List Nat) (List Nat)
  | buf, _, [] => Except.ok buf
  | buf, i, v :: vs =>
    if i < buf.length then writeBytes (buf.set i v) (i + 1) vs
    else Except.error buf

/-- The five table lookups for one 16-bit block `b` (lib.rs 44-52):
`CONSONANTS[(b & 0b1111_0000_0000_0000) >> 12]`, `VOWELS[(b & 0b0000_1100_0000_0000) >> 10]`,
`CONSONANTS[(b & 0b0000_0011_1100_0000) >> 6]`, `VOWELS[(b & 0b0000_0000_0011_0000) >> 4]`,
`CONSONANTS[b & 0b0000_0000_0000_1111]` (masks written in hex). -/
def syllable (b : Nat) : List Nat :=
  [CONSONANTS.getD ((b &&& 0xF000) >>> 12) 0,
   VOWELS.getD ((b &&& 0x0C00) >>> 10) 0,
   CONSONANTS.getD ((b &&& 0x03C0) >>> 6) 0,
   VOWELS.getD ((b &&& 0x0030) >>> 4) 0,
   CONSONANTS.getD (b &&& 0x000F) 0]

/-- The `while c < input.len()` loop of `proquints_buf` (lib.rs 40-57),
consuming two input bytes per iteration.  `b = (input[c] << 8) | input[c+1]`;
five symbol bytes are stored, then the separator unless `i == buf.len()`.
A one-byte remainder would read `input[c+1]` out of bounds (unreachable after
the evenness assert). -/
def encodeLoop (sep : Nat) : List Nat → List Nat → Nat → EncodeResult
  | [], buf, i => EncodeResult.ok buf i
  | [_], buf, _ => EncodeResult.fault Fault.outOfBounds buf
  | x :: y :: rest, buf, i =>
    match writeBytes buf i (syllable ((x <<< 8) ||| y)) with
    | Except.error b2 => EncodeResult.fault Fault.outOfBounds b2
    | Except.ok b2 =>
      if i + 5 = b2.length then encodeLoop sep rest b2 (i + 5)
      else if i + 5 < b2.length then encodeLoop sep rest (b2.set (i + 5) sep) (i + 6)
      else EncodeResult.fault Fault.outOfBounds b2

/-- `pub fn proquints_buf(input: &[u8], buf: &mut [u8], separator: u8)`
(lib.rs 35-60): asserts `input.len() % 2 == 0`, then asserts
`output_length(input.len()) >= buf.len()` (note the direction, as in the
source), then runs the encode loop from `i = 0`. -/
def proquints_buf (input buf : List Nat) (separator : Nat) : EncodeResult :=
  if input.length % 2 = 0 then
    match output_length input.length with
    | none => EncodeResult.fault Fault.underflow buf
    | some ol =>
      if buf.length ≤ ol then encodeLoop separator input buf 0
      else EncodeResult.fault Fault.assertFailed buf
  else EncodeResult.fault Fault.assertFailed buf

/-- The `&str` view `&buf[..i]` that `proquints_buf` returns on success. -/
def proquints_buf_view (input buf : List Nat) (separator : Nat) : Option (List Nat) :=
  match proquints_buf input buf separator with
  | EncodeResult.ok b i => some (b.take i)
  | EncodeResult.fault _ _ => none

/-- `pub fn proquints<T: Proquint>(input: T) -> String` (lib.rs 19-26) after
the `as_bytes` adapter: allocates `vec![0u8; output_length(input.len())]`,
encodes with separator `b'-'` (45), and returns the whole buffer as a
`String`.  Any panic on the way is `none`. -/
def proquints (input : List Nat) : Option (List Nat) :=
  match output_length input.length with
  | none => none
  | some ol =>
    match proquints_buf input (List.replicate ol 0) 45 with
    | EncodeResult.ok b _ => some b
    | EncodeResult.fault _ _ => none

/-- The ASCII byte values of a string literal, for stating expected outputs. -/
def asciiBytes (s : String) : List Nat := s.data.map Char.toNat

/-- Functional description of the loop output: one syllable per 2-byte
big-endian block, with the separator between consecutive syllables. -/
def encodeBytes (sep : Nat) : List Nat → List Nat
  | [] => []
  | [_] => []
  | x :: y :: rest =>
    match rest with
    | [] => syllable ((x <<< 8) ||| y)
    | _ :: _ => syllable ((x <<< 8) ||| y) ++ sep :: encodeBytes sep rest

/-- `impl Proquint for &[u8]` (lib.rs 92-98): `as_bytes` returns the slice
itself, unchanged. -/
def slice_as_bytes (l : List Nat) : List Nat := l

/-- `impl Proquint for u16` (lib.rs 97-103): `self.to_be_bytes()`.  Each
`as u8` truncation is `% 256`. -/
def u16_as_bytes (n : Nat) : List Nat := [(n >>> 8) % 256, n % 256]

/-- `impl Proquint for u32` (lib.rs 105-111): `self.to_be_bytes()`. -/
def u32_as_bytes (n : Nat) : List Nat :=
  [(n >>> 24) % 256, (n >>> 16) % 256, (n >>> 8) % 256, n % 256]

/-- `impl Proquint for u64` (lib.rs 113-119): `self.to_be_bytes()`. -/
def u64_as_bytes (n : Nat) : List Nat :=
  [(n >>> 56) % 256, (n >>> 48) % 256, (n >>> 40) % 256, (n >>> 32) % 256,
   (n >>> 24) % 256, (n >>> 16) % 256, (n >>> 8) % 256, n % 256]

/-- `std::net::Ipv4Addr`, as the four octets `a.b.c.d` of its dotted form. -/
structure Ipv4Addr where
  a : Nat
  b : Nat
  c : Nat
  d : Nat

/-- `impl Proquint for Ipv4Addr` (lib.rs 128-134): `self.octets()`, the four
octets in network order. -/
def Ipv4Addr.octets (ip : Ipv4Addr) : List Nat := [ip.a, ip.b, ip.c, ip.d]

/-- The 32-bit value an IPv4 address denotes (first octet most significant). -/
def Ipv4Addr.toNat (ip : Ipv4Addr) : Nat :=
  ip.a * 0x1000000 + ip.b * 0x10000 + ip.c * 0x100 + ip.d

/-- `std::net::Ipv6Addr`, as the sixteen octets of its `[u8; 16]`
representation. -/
structure Ipv6Addr where
  o0 : Nat
  o1 : Nat
  o2 : Nat
  o3 : Nat
  o4 : Nat
  o5 : Nat
  o6 : Nat
  o7 : Nat
  o8 : Nat
  o9 : Nat
  o10 : Nat
  o11 : Nat
  o12 : Nat
  o13 : Nat
  o14 : Nat
  o15 : Nat

/-- `impl Proquint for Ipv6Addr` (lib.rs 136-142): `self.octets()`, the
sixteen octets in network order. -/
def Ipv6Addr.octets (ip : Ipv6Addr) : List Nat :=
  [ip.o0, ip.o1, ip.o2, ip.o3, ip.o4, ip.o5, ip.o6, ip.o7,
   ip.o8, ip.o9, ip.o10, ip.o11, ip.o12, ip.o13, ip.o14, ip.o15]

/-- The 128-bit value an IPv6 address denotes (first octet most significant). -/
def Ipv6Addr.toNat (ip : Ipv6Addr) : Nat :=
  ip.o0 * 256 ^ 15 + ip.o1 * 256 ^ 14 + ip.o2 * 256 ^ 13 + ip.o3 * 256 ^ 12 +
  ip.o4 * 256 ^ 11 + ip.o5 * 256 ^ 10 + ip.o6 * 256 ^ 9 + ip.o7 * 256 ^ 8 +
  ip.o8 * 256 ^ 7 + ip.o9 * 256 ^ 6 + ip.o10 * 256 ^ 5 + ip.o11 * 256 ^ 4 +
  ip.o12 * 256 ^ 3 + ip.o13 * 256 ^ 2 + ip.o14 * 256 + ip.o15

/-- From the spec's words, for comparison with the source's `as_bytes`
implementations: "the value's big-endian (most-significant-byte-first) byte
representation" of a given fixed width in bytes. -/
def bigEndianBytes : Nat → Nat → List Nat
  | 0, _ => []
  | w + 1, n => bigEndianBytes w (n / 256) ++ [n % 256]

/-- The value a byte list denotes when read most-significant-byte first. -/
def ofBeBytes : List Nat → Nat
  | [] => 0
  | x :: xs => x * 256 ^ xs.length + ofBeBytes xs

end Proquints

namespace Proquints

/-! ### Helper lemmas -/

theorem syllable_length (b : Nat) : (syllable b).length = 5 := rfl

theorem and_shiftRight_distrib (x y n : Nat) :
    (x &&& y) >>> n = (x >>> n) &&& (y >>> n) := by
  apply Nat.eq_of_testBit_eq
  intro i
  simp [Nat.testBit_shiftRight, Nat.testBit_and]

theorem mask_c1 (b : Nat) : (b &&& 0xF000) >>> 12 = b / 4096 % 16 := by
  rw [and_shiftRight_distrib]
  have h : (0xF000 : Nat) >>> 12 = 15 := by decide
  rw [h, Nat.and_pow_two_sub_one_eq_mod _ 4, Nat.shiftRight_eq_div_pow]

theorem mask_v1 (b : Nat) : (b &&& 0x0C00) >>> 10 = b / 1024 % 4 := by
  rw [and_shiftRight_distrib]
  have h : (0x0C00 : Nat) >>> 10 = 3 := by decide
  rw [h, Nat.and_pow_two_sub_one_eq_mod _ 2, Nat.shiftRight_eq_div_pow]

theorem mask_c2 (b : Nat) : (b &&& 0x03C0) >>> 6 = b / 64 % 16 := by
  rw [and_shiftRight_distrib]
  have h : (0x03C0 : Nat) >>> 6 = 15 := by decide
  rw [h, Nat.and_pow_two_sub_one_eq_mod _ 4, Nat.shiftRight_eq_div_pow]

theorem mask_v2 (b : Nat) : (b &&& 0x0030) >>> 4 = b / 16 % 4 := by
  rw [and_shiftRight_distrib]
  have h : (0x0030 : Nat) >>> 4 = 3 := by decide
  rw [h, Nat.and_pow_two_sub_one_eq_mod _ 2, Nat.shiftRight_eq_div_pow]

theorem mask_c3 (b : Nat) : b &&& 0x000F = b % 16 :=
  Nat.and_pow_two_sub_one_eq_mod b 4

theorem consonants_getD_mem : ∀ k, k < 16 → CONSONANTS.getD k 0 ∈ CONSONANTS := by
  decide

theorem vowels_getD_mem : ∀ k, k < 4 → VOWELS.getD k 0 ∈ VOWELS := by
  decide

theorem consonants_getD_inj : ∀ k1, k1 < 16 → ∀ k2, k2 < 16 →
    CONSONANTS.getD k1 0 = CONSONANTS.getD k2 0 → k1 = k2 := by
  decide

theorem vowels_getD_inj : ∀ k1, k1 < 4 → ∀ k2, k2 < 4 →
    VOWELS.getD k1 0 = VOWELS.getD k2 0 → k1 = k2 := by
  decide

theorem consonants_ascii : ∀ x ∈ CONSONANTS, x < 128 := by decide

theorem vowels_ascii : ∀ x ∈ VOWELS, x < 128 := by decide

end Proquints

namespace Proquints

theorem writeBytes_ok (l : List Nat) : ∀ (buf : List Nat) (i : Nat),
    i + l.length ≤ buf.length →
    writeBytes buf i l = Except.ok (buf.take i ++ l ++ buf.drop (i + l.length)) := by
  induction l with
  | nil =>
    intro buf i h
    simp [writeBytes]
  | cons v vs ih =>
    intro buf i h
    have hi : i < buf.length := by simp at h ⊢; omega
    have h2 : (List.take i buf).length = i := by
      simp [Nat.min_eq_left (Nat.le_of_lt hi)]
    rw [writeBytes, if_pos hi, ih (buf.set i v) (i + 1)
      (by simp at h ⊢; omega)]
    rw [List.set_eq_take_cons_drop v hi]
    have e1 : List.take (i + 1) (List.take i buf ++ v :: List.drop (i + 1) buf)
        = List.take i buf ++ [v] := by
      rw [List.take_append_eq_append_take, List.take_take, h2]
      have m1 : min (i + 1) i = i := by omega
      have m2 : i + 1 - i = 1 := by omega
      rw [m1, m2]
      simp
    have e2 : List.drop (i + 1 + vs.length) (List.take i buf ++ v :: List.drop (i + 1) buf)
        = List.drop (i + (vs.length + 1)) buf := by
      rw [List.drop_append_eq_append_drop, h2]
      have m3 : i + 1 + vs.length - i = vs.length + 1 := by omega
      rw [m3, List.drop_eq_nil_of_le (by rw [h2]; omega)]
      rw [List.nil_append, List.drop_succ_cons, List.drop_drop]
      have m4 : i + 1 + vs.length = i + (vs.length + 1) := by omega
      rw [m4]
    rw [e1, e2]
    simp

theorem writeBytes_bound (l : List Nat) : ∀ (buf : List Nat) (i : Nat) (b2 : List Nat),
    writeBytes buf i l = Except.ok b2 → i + l.length ≤ buf.length ∨ l = [] := by
  induction l with
  | nil =>
    intro buf i b2 _
    right
    rfl
  | cons v vs ih =>
    intro buf i b2 h
    rw [writeBytes] at h
    by_cases hi : i < buf.length
    · rw [if_pos hi] at h
      left
      rcases ih (buf.set i v) (i + 1) b2 h with hb | hnil
      · simp at hb ⊢
        omega
      · subst hnil
        simp
        omega
    · rw [if_neg hi] at h
      exact absurd h (by simp)

theorem encodeBytes_length (sep : Nat) : ∀ input : List Nat,
    input.length % 2 = 0 → 0 < input.length →
    (encodeBytes sep input).length + 1 = (input.length / 2) * 6
  | [] => by intro _ h; exact absurd h (by simp)
  | [_] => by intro h _; exact absurd h (by simp)
  | x :: y :: [] => by
    intro _ _
    simp [encodeBytes, syllable_length]
  | x :: y :: r :: rest => by
    intro he _
    rw [encodeBytes]
    have ih := encodeBytes_length sep (r :: rest) (by simp at he ⊢; omega) (by simp)
    simp [syllable_length] at ih ⊢
    simp at he
    omega

theorem encodeLoop_ok (sep : Nat) : ∀ (input buf : List Nat) (i : Nat),
    input.length % 2 = 0 → 0 < input.length →
    buf.length + 1 = i + (input.length / 2) * 6 →
    encodeLoop sep input buf i =
      EncodeResult.ok (buf.take i ++ encodeBytes sep input) buf.length
  | [], _, _ => by intro _ h _; exact absurd h (by simp)
  | [_], _, _ => by intro h _ _; exact absurd h (by simp)
  | x :: y :: [], buf, i => by
    intro _ _ hlen
    simp at hlen
    have h5 : i + 5 = buf.length := by omega
    rw [encodeLoop, writeBytes_ok _ buf i (by rw [syllable_length]; omega)]
    rw [syllable_length, List.drop_eq_nil_of_le (by omega), List.append_nil]
    have hb2 : (buf.take i ++ syllable ((x <<< 8) ||| y)).length = buf.length := by
      simp [syllable_length]
      omega
    dsimp only
    rw [if_pos (by rw [hb2]; omega)]
    rw [encodeLoop, encodeBytes, h5]
  | x :: y :: r :: rest, buf, i => by
    intro he hp hlen
    simp at he hlen
    have h6 : i + 6 ≤ buf.length := by omega
    rw [encodeLoop, writeBytes_ok _ buf i (by rw [syllable_length]; omega)]
    rw [syllable_length]
    have hb2 : (buf.take i ++ syllable ((x <<< 8) ||| y) ++ buf.drop (i + 5)).length
        = buf.length := by
      simp [syllable_length]
      omega
    dsimp only
    rw [if_neg (by rw [hb2]; omega), if_pos (by rw [hb2]; omega)]
    have hA : (List.take i buf ++ syllable ((x <<< 8) ||| y)).length = i + 5 := by
      simp [syllable_length]
      omega
    rw [encodeLoop_ok sep (r :: rest) _ (i + 6) (by simp at he ⊢; omega) (by simp)
      (by simp at hb2 ⊢; omega)]
    have htake : ((List.take i buf ++ syllable ((x <<< 8) ||| y) ++ List.drop (i + 5) buf).set
          (i + 5) sep).take (i + 6)
        = List.take i buf ++ (syllable ((x <<< 8) ||| y) ++ [sep]) := by
      rw [← List.append_assoc]
      rw [List.set_eq_take_cons_drop sep (by simp at hb2 ⊢; omega)]
      rw [List.take_left' hA]
      rw [List.take_append_eq_append_take, List.take_of_length_le (by rw [hA]; omega), hA]
      have m1 : i + 6 - (i + 5) = 1 := by omega
      rw [m1]
      simp
    rw [htake]
    have hlength : ((List.take i buf ++ syllable ((x <<< 8) ||| y) ++ List.drop (i + 5) buf).set
        (i + 5) sep).length = buf.length := by
      simp at hb2 ⊢
      omega
    rw [hlength]
    show _ = EncodeResult.ok (List.take i buf ++
      (syllable ((x <<< 8) ||| y) ++ sep :: encodeBytes sep (r :: rest))) buf.length
    simp

/-- On even, non-empty input, `proquints` succeeds and returns exactly the
functional description of the encoding with separator `-`. -/
theorem proquints_eq_encodeBytes (input : List Nat)
    (he : input.length % 2 = 0) (hp : 0 < input.length) :
    proquints input = some (encodeBytes 45 input) := by
  have hol : output_length input.length = some ((input.length / 2) * 6 - 1) := by
    unfold output_length
    rw [if_neg (by omega)]
  rw [proquints, hol]
  dsimp only
  unfold proquints_buf
  rw [if_pos he, hol]
  have hlen : (List.replicate ((input.length / 2) * 6 - 1) 0).length
      = (input.length / 2) * 6 - 1 := by simp
  dsimp only
  rw [if_pos (by rw [hlen])]
  rw [encodeLoop_ok 45 input _ 0 he hp (by rw [hlen]; omega)]
  simp

end Proquints

namespace Proquints

theorem getD_take_lt (l : List Nat) (i p : Nat) (h1 : p < i) (h2 : p < l.length) :
    (l.take i).getD p 0 = l.getD p 0 := by
  rw [List.getD_eq_getElem _ _ (by simp [List.length_take]; omega),
    List.getD_eq_getElem _ _ h2]
  exact List.getElem_take l

theorem getD_set_ne (l : List Nat) (n p a d : Nat) (h : n ≠ p) :
    (l.set n a).getD p d = l.getD p d := by
  simp [List.getD_eq_getElem?_getD, List.getElem?_set_ne h]

theorem getD_set_eq (l : List Nat) (n a d : Nat) (h : n < l.length) :
    (l.set n a).getD n d = a := by
  simp [List.getD_eq_getElem?_getD, List.getElem?_set_self, h]

theorem syllable_getD_class (b : Nat) :
    (syllable b).getD 0 0 ∈ CONSONANTS ∧ (syllable b).getD 1 0 ∈ VOWELS ∧
    (syllable b).getD 2 0 ∈ CONSONANTS ∧ (syllable b).getD 3 0 ∈ VOWELS ∧
    (syllable b).getD 4 0 ∈ CONSONANTS := by
  refine ⟨?_, ?_, ?_, ?_, ?_⟩
  · exact consonants_getD_mem _ (by rw [mask_c1]; omega)
  · exact vowels_getD_mem _ (by rw [mask_v1]; omega)
  · exact consonants_getD_mem _ (by rw [mask_c2]; omega)
  · exact vowels_getD_mem _ (by rw [mask_v2]; omega)
  · exact consonants_getD_mem _ (by rw [mask_c3]; omega)

theorem syllable_getD_mem (b : Nat) (k : Nat) (hk : k < 5) :
    (syllable b).getD k 0 ∈ CONSONANTS ∨ (syllable b).getD k 0 ∈ VOWELS := by
  have hc := syllable_getD_class b
  interval_cases k
  · exact Or.inl hc.1
  · exact Or.inr hc.2.1
  · exact Or.inl hc.2.2.1
  · exact Or.inr hc.2.2.2.1
  · exact Or.inl hc.2.2.2.2

theorem encodeBytes_classes (sep : Nat) : ∀ input : List Nat, ∀ p : Nat,
    p < (encodeBytes sep input).length →
    ((p % 6 = 0 ∨ p % 6 = 2 ∨ p % 6 = 4) → (encodeBytes sep input).getD p 0 ∈ CONSONANTS) ∧
    ((p % 6 = 1 ∨ p % 6 = 3) → (encodeBytes sep input).getD p 0 ∈ VOWELS) ∧
    (p % 6 = 5 → (encodeBytes sep input).getD p 0 = sep)
  | [] => by
    intro p hp
    simp [encodeBytes] at hp
  | [_] => by
    intro p hp
    simp [encodeBytes] at hp
  | x :: y :: [] => by
    intro p hp
    rw [show encodeBytes sep [x, y] = syllable ((x <<< 8) ||| y) from rfl] at hp ⊢
    rw [syllable_length] at hp
    have hc := syllable_getD_class ((x <<< 8) ||| y)
    interval_cases p
    · exact ⟨fun _ => hc.1, fun hv => absurd hv (by decide), fun hs => absurd hs (by decide)⟩
    · exact ⟨fun hv => absurd hv (by decide), fun _ => hc.2.1, fun hs => absurd hs (by decide)⟩
    · exact ⟨fun _ => hc.2.2.1, fun hv => absurd hv (by decide), fun hs => absurd hs (by decide)⟩
    · exact ⟨fun hv => absurd hv (by decide), fun _ => hc.2.2.2.1, fun hs => absurd hs (by decide)⟩
    · exact ⟨fun _ => hc.2.2.2.2, fun hv => absurd hv (by decide), fun hs => absurd hs (by decide)⟩
  | x :: y :: r :: rest => by
    intro p hp
    rw [show encodeBytes sep (x :: y :: r :: rest)
      = syllable ((x <<< 8) ||| y) ++ sep :: encodeBytes sep (r :: rest) from rfl] at hp ⊢
    simp [syllable_length] at hp
    by_cases h5 : p < 5
    · rw [List.getD_append _ _ _ _ (by rw [syllable_length]; omega)]
      have hc := syllable_getD_class ((x <<< 8) ||| y)
      interval_cases p
      · exact ⟨fun _ => hc.1, fun hv => absurd hv (by decide), fun hs => absurd hs (by decide)⟩
      · exact ⟨fun hv => absurd hv (by decide), fun _ => hc.2.1, fun hs => absurd hs (by decide)⟩
      · exact ⟨fun _ => hc.2.2.1, fun hv => absurd hv (by decide), fun hs => absurd hs (by decide)⟩
      · exact ⟨fun hv => absurd hv (by decide), fun _ => hc.2.2.2.1, fun hs => absurd hs (by decide)⟩
      · exact ⟨fun _ => hc.2.2.2.2, fun hv => absurd hv (by decide), fun hs => absurd hs (by decide)⟩
    · rw [List.getD_append_right _ _ _ _ (by rw [syllable_length]; omega), syllable_length]
      by_cases h6 : p = 5
      · subst h6
        refine ⟨fun hc => absurd hc (by decide), fun hv => absurd hv (by decide), fun _ => rfl⟩
      · have h7 : 6 ≤ p := by omega
        have m1 : p - 5 = (p - 6) + 1 := by omega
        rw [m1, List.getD_cons_succ]
        have ih := encodeBytes_classes sep (r :: rest) (p - 6) (by omega)
        have m2 : (p - 6) % 6 = p % 6 := by omega
        rw [m2] at ih
        exact ih

end Proquints

namespace Proquints

theorem encodeLoop_inv (sep : Nat) : ∀ (input buf : List Nat) (i : Nat) (buf2 : List Nat)
    (j : Nat), encodeLoop sep input buf i = EncodeResult.ok buf2 j →
    i ≤ j ∧ buf2.length = buf.length ∧
    (∀ p, p < i → buf2.getD p 0 = buf.getD p 0) ∧
    (∀ p, i ≤ p → p < j →
      buf2.getD p 0 ∈ CONSONANTS ∨ buf2.getD p 0 ∈ VOWELS ∨ buf2.getD p 0 = sep)
  | [], buf, i, buf2, j => by
    intro h
    rw [encodeLoop] at h
    cases h
    exact ⟨Nat.le_refl i, rfl, fun p _ => rfl, fun p h1 h2 => absurd h2 (by omega)⟩
  | [_], buf, i, buf2, j => by
    intro h
    rw [encodeLoop] at h
    exact absurd h (by simp)
  | x :: y :: rest, buf, i, buf2, j => by
    intro h
    rw [encodeLoop] at h
    cases hw : writeBytes buf i (syllable ((x <<< 8) ||| y)) with
    | error e =>
      rw [hw] at h
      exact absurd h (by simp)
    | ok b2 =>
      rw [hw] at h
      dsimp only at h
      have hbound : i + 5 ≤ buf.length := by
        rcases writeBytes_bound _ buf i b2 hw with hb | hnil
        · rw [syllable_length] at hb
          exact hb
        · exact absurd hnil (by simp [syllable])
      have hb2eq : b2 = buf.take i ++ syllable ((x <<< 8) ||| y) ++ buf.drop (i + 5) := by
        rw [writeBytes_ok _ buf i (by rw [syllable_length]; omega), syllable_length] at hw
        exact (by simpa using hw.symm)
      have hb2len : b2.length = buf.length := by
        rw [hb2eq]
        simp [syllable_length]
        omega
      have hlow : ∀ p, p < i → b2.getD p 0 = buf.getD p 0 := by
        intro p hp
        rw [hb2eq,
          List.getD_append _ _ _ _ (by simp [syllable_length]; omega),
          List.getD_append _ _ _ _ (by simp; omega)]
        exact getD_take_lt buf i p hp (by omega)
      have hmid : ∀ p, i ≤ p → p < i + 5 →
          b2.getD p 0 = (syllable ((x <<< 8) ||| y)).getD (p - i) 0 := by
        intro p hp1 hp2
        rw [hb2eq,
          List.getD_append _ _ _ _ (by simp [syllable_length]; omega),
          List.getD_append_right _ _ _ _ (by simp; omega)]
        congr 1
        simp
        omega
      by_cases h5 : i + 5 = b2.length
      · rw [if_pos h5] at h
        have ih := encodeLoop_inv sep rest b2 (i + 5) buf2 j h
        refine ⟨by omega, by rw [ih.2.1, hb2len], ?_, ?_⟩
        · intro p hp
          rw [ih.2.2.1 p (by omega)]
          exact hlow p hp
        · intro p hp1 hp2
          by_cases hcase : p < i + 5
          · rw [ih.2.2.1 p (by omega), hmid p hp1 hcase]
            rcases syllable_getD_mem ((x <<< 8) ||| y) (p - i) (by omega) with hm | hm
            · exact Or.inl hm
            · exact Or.inr (Or.inl hm)
          · exact ih.2.2.2 p (by omega) hp2
      · rw [if_neg h5] at h
        by_cases h5' : i + 5 < b2.length
        · rw [if_pos h5'] at h
          have ih := encodeLoop_inv sep rest (b2.set (i + 5) sep) (i + 6) buf2 j h
          have hslen : (b2.set (i + 5) sep).length = buf.length := by
            rw [List.length_set, hb2len]
          refine ⟨by omega, by rw [ih.2.1, hslen], ?_, ?_⟩
          · intro p hp
            rw [ih.2.2.1 p (by omega), getD_set_ne _ _ _ _ _ (by omega)]
            exact hlow p hp
          · intro p hp1 hp2
            by_cases hcase : p < i + 5
            · rw [ih.2.2.1 p (by omega), getD_set_ne _ _ _ _ _ (by omega),
                hmid p hp1 hcase]
              rcases syllable_getD_mem ((x <<< 8) ||| y) (p - i) (by omega) with hm | hm
              · exact Or.inl hm
              · exact Or.inr (Or.inl hm)
            · by_cases hcase2 : p = i + 5
              · subst hcase2
                rw [ih.2.2.1 _ (by omega), getD_set_eq _ _ _ _ h5']
                exact Or.inr (Or.inr rfl)
              · exact ih.2.2.2 p (by omega) hp2
        · rw [if_neg h5'] at h
          exact absurd h (by simp)

end Proquints

namespace Proquints

theorem bigEndianBytes_two (n : Nat) : bigEndianBytes 2 n = [n / 256 % 256, n % 256] := rfl

theorem bigEndianBytes_four (n : Nat) : bigEndianBytes 4 n
    = [n / 16777216 % 256, n / 65536 % 256, n / 256 % 256, n % 256] := by
  rw [show bigEndianBytes 4 n
    = [n / 256 / 256 / 256 % 256, n / 256 / 256 % 256, n / 256 % 256, n % 256] from rfl]
  simp [Nat.div_div_eq_div_mul]

theorem bigEndianBytes_eight (n : Nat) : bigEndianBytes 8 n
    = [n / 72057594037927936 % 256, n / 281474976710656 % 256, n / 1099511627776 % 256,
       n / 4294967296 % 256, n / 16777216 % 256, n / 65536 % 256, n / 256 % 256, n % 256] := by
  rw [show bigEndianBytes 8 n
    = [n / 256 / 256 / 256 / 256 / 256 / 256 / 256 % 256, n / 256 / 256 / 256 / 256 / 256 / 256 % 256,
       n / 256 / 256 / 256 / 256 / 256 % 256, n / 256 / 256 / 256 / 256 % 256,
       n / 256 / 256 / 256 % 256, n / 256 / 256 % 256, n / 256 % 256, n % 256] from rfl]
  simp [Nat.div_div_eq_div_mul]

end Proquints

namespace Proquints

theorem bigEndianBytes_cons (w : Nat) : ∀ (o r : Nat), o < 256 → r < 256 ^ w →
    bigEndianBytes (w + 1) (o * 256 ^ w + r) = o :: bigEndianBytes w r := by
  induction w with
  | zero =>
    intro o r ho hr
    have hr0 : r = 0 := by omega
    subst hr0
    rw [show bigEndianBytes 1 (o * 256 ^ 0 + 0)
      = bigEndianBytes 0 ((o * 256 ^ 0 + 0) / 256) ++ [(o * 256 ^ 0 + 0) % 256] from rfl]
    simp [bigEndianBytes]
    omega
  | succ w ih =>
    intro o r ho hr
    rw [show bigEndianBytes (w + 1 + 1) (o * 256 ^ (w + 1) + r)
      = bigEndianBytes (w + 1) ((o * 256 ^ (w + 1) + r) / 256)
        ++ [(o * 256 ^ (w + 1) + r) % 256] from rfl]
    have hdiv : (o * 256 ^ (w + 1) + r) / 256 = o * 256 ^ w + r / 256 := by
      rw [pow_succ, ← Nat.mul_assoc]
      rw [show o * 256 ^ w * 256 + r = 256 * (o * 256 ^ w) + r by ring]
      rw [Nat.mul_add_div (by norm_num)]
    have hmod : (o * 256 ^ (w + 1) + r) % 256 = r % 256 := by
      rw [pow_succ, ← Nat.mul_assoc, Nat.add_comm, Nat.add_mul_mod_self_right]
    rw [hdiv, hmod, ih o (r / 256) ho (by
      rw [pow_succ] at hr
      exact Nat.div_lt_of_lt_mul (by omega))]
    rw [show bigEndianBytes (w + 1) r
      = bigEndianBytes w (r / 256) ++ [r % 256] from rfl]
    simp

theorem ofBeBytes_lt : ∀ l : List Nat, (∀ x ∈ l, x < 256) → ofBeBytes l < 256 ^ l.length := by
  intro l
  induction l with
  | nil =>
    intro _
    simp [ofBeBytes]
  | cons x xs ih =>
    intro hb
    have hx : x < 256 := hb x (by simp)
    have hxs := ih (fun z hz => hb z (by simp [hz]))
    rw [ofBeBytes]
    simp [pow_succ]
    calc x * 256 ^ xs.length + ofBeBytes xs
        < x * 256 ^ xs.length + 256 ^ xs.length := by omega
      _ = (x + 1) * 256 ^ xs.length := by ring
      _ ≤ 256 * 256 ^ xs.length := by
          exact Nat.mul_le_mul_right _ (by omega)
      _ = 256 ^ xs.length * 256 := by ring

theorem bigEndianBytes_ofBeBytes : ∀ l : List Nat, (∀ x ∈ l, x < 256) →
    bigEndianBytes l.length (ofBeBytes l) = l := by
  intro l
  induction l with
  | nil =>
    intro _
    rfl
  | cons x xs ih =>
    intro hb
    have hx : x < 256 := hb x (by simp)
    have hxs := ih (fun z hz => hb z (by simp [hz]))
    rw [show (x :: xs).length = xs.length + 1 from rfl, ofBeBytes,
      bigEndianBytes_cons xs.length x (ofBeBytes xs) hx
        (ofBeBytes_lt xs (fun z hz => hb z (by simp [hz]))),
      hxs]

end Proquints

namespace Proquints

/-! ### Claim theorems -/

/-- C1: the claim says an undersized output buffer makes `proquints_buf` fail
fast before any bytes are written.  The code's entry assertion
`output_length(input.len()) >= buf.len()` accepts undersized buffers, so the
fault actually raised is an index-out-of-bounds panic *after* bytes were
written: for input `[0, 0]` and the 1-byte buffer `[99]` (undersized, since
`output_length 2 = 5 > 1`), the first output byte 98 (`b`) is stored into the
buffer and only then does the loop fault. -/
theorem undersized_buffer_writes_before_fault :
    output_length 2 = some 5 ∧
    proquints_buf [0, 0] [99] 45 = EncodeResult.fault Fault.outOfBounds [98] := by
  decide

/-- C2: encoding the five reference IPv4 addresses with separator `-`
produces exactly the listed strings. -/
theorem known_ipv4_vectors :
    proquints (Ipv4Addr.octets ⟨127, 0, 0, 1⟩) = some (asciiBytes "lusab-babad") ∧
    proquints (Ipv4Addr.octets ⟨63, 84, 220, 193⟩) = some (asciiBytes "gutih-tugad") ∧
    proquints (Ipv4Addr.octets ⟨140, 98, 193, 141⟩) = some (asciiBytes "mudof-sakat") ∧
    proquints (Ipv4Addr.octets ⟨212, 58, 253, 68⟩) = some (asciiBytes "tibup-zujah") ∧
    proquints (Ipv4Addr.octets ⟨12, 110, 110, 204⟩) = some (asciiBytes "budov-kuras") := by
  decide

/-- C3: for every even, positive-length input, `proquints` succeeds and the
returned string's length is `output_length` of the input length, which equals
`(L / 2) * 6 - 1`. -/
theorem proquints_length_law (input : List Nat)
    (he : input.length % 2 = 0) (hp : 0 < input.length) :
    ∃ out, proquints input = some out ∧ output_length input.length = some out.length ∧
      out.length = (input.length / 2) * 6 - 1 := by
  refine ⟨encodeBytes 45 input, proquints_eq_encodeBytes input he hp, ?_, ?_⟩
  · have hl := encodeBytes_length 45 input he hp
    unfold output_length
    rw [if_neg (by omega)]
    congr 1
    omega
  · have hl := encodeBytes_length 45 input he hp
    omega

theorem proquints_length_law_witness :
    ∃ out, proquints [127, 0, 0, 1] = some out ∧
      output_length (List.length [127, 0, 0, 1]) = some out.length ∧
      out.length = (List.length [127, 0, 0, 1] / 2) * 6 - 1 :=
  proquints_length_law [127, 0, 0, 1] (by decide) (by decide)

/-- C4: every character of the `proquints` output at position `p` is a
consonant-table entry when `p % 6 ∈ {0, 2, 4}`, a vowel-table entry when
`p % 6 ∈ {1, 3}`, and the separator `-` (45) when `p % 6 = 5`. -/
theorem proquints_syllable_structure (input out : List Nat)
    (he : input.length % 2 = 0) (hp : 0 < input.length)
    (hout : proquints input = some out) :
    ∀ p, p < out.length →
      ((p % 6 = 0 ∨ p % 6 = 2 ∨ p % 6 = 4) → out.getD p 0 ∈ CONSONANTS) ∧
      ((p % 6 = 1 ∨ p % 6 = 3) → out.getD p 0 ∈ VOWELS) ∧
      (p % 6 = 5 → out.getD p 0 = 45) := by
  rw [proquints_eq_encodeBytes input he hp] at hout
  have h := Option.some.inj hout
  subst h
  exact encodeBytes_classes 45 input

theorem proquints_syllable_structure_witness :
    (asciiBytes "lusab-babad").getD 0 0 ∈ CONSONANTS :=
  (proquints_syllable_structure [127, 0, 0, 1] (asciiBytes "lusab-babad")
    (by decide) (by decide) (by decide) 0 (by decide)).1 (by decide)

/-- C5: the map from a 16-bit block to its 5-character syllable is injective:
no two distinct 16-bit values produce the same syllable. -/
theorem syllable_block_injective (b1 : Nat) (h1 : b1 < 65536) (b2 : Nat)
    (h2 : b2 < 65536) (h : syllable b1 = syllable b2) : b1 = b2 := by
  unfold syllable at h
  simp only [List.cons.injEq] at h
  obtain ⟨e1, e2, e3, e4, e5, -⟩ := h
  rw [mask_c1 b1, mask_c1 b2] at e1
  rw [mask_v1 b1, mask_v1 b2] at e2
  rw [mask_c2 b1, mask_c2 b2] at e3
  rw [mask_v2 b1, mask_v2 b2] at e4
  rw [mask_c3 b1, mask_c3 b2] at e5
  have k1 := consonants_getD_inj _ (by omega) _ (by omega) e1
  have k2 := vowels_getD_inj _ (by omega) _ (by omega) e2
  have k3 := consonants_getD_inj _ (by omega) _ (by omega) e3
  have k4 := vowels_getD_inj _ (by omega) _ (by omega) e4
  have k5 := consonants_getD_inj _ (by omega) _ (by omega) e5
  omega

theorem syllable_block_injective_witness : (43981 : Nat) = 43981 :=
  syllable_block_injective 43981 (by decide) 43981 (by decide) rfl

/-- C6: an odd-length input makes `proquints_buf` fail at the entry assert
with the buffer untouched (never silently rounded or truncated), and makes
`proquints` fault as well. -/
theorem odd_length_fault (input buf : List Nat) (sep : Nat)
    (h : input.length % 2 = 1) :
    proquints_buf input buf sep = EncodeResult.fault Fault.assertFailed buf ∧
    proquints input = none := by
  have h2 : ¬(input.length % 2 = 0) := by omega
  have key : ∀ (b : List Nat) (s : Nat),
      proquints_buf input b s = EncodeResult.fault Fault.assertFailed b := by
    intro b s
    rw [proquints_buf, if_neg h2]
  refine ⟨key buf sep, ?_⟩
  unfold proquints
  cases hol : output_length input.length with
  | none => rfl
  | some ol =>
    dsimp only
    rw [key]

theorem odd_length_fault_witness :
    proquints_buf [0] [] 45 = EncodeResult.fault Fault.assertFailed [] ∧
    proquints [0] = none :=
  odd_length_fault [0] [] 45 (by decide)

end Proquints

namespace Proquints

/-- C7: each type adapter hands the encoder the value's big-endian
(most-significant-byte-first) representation of the documented fixed width:
2 bytes for `u16`, 4 for `u32`, 8 for `u64`, the 4 network-order octets for
`Ipv4Addr`, the 16 network-order octets for `Ipv6Addr`; a raw byte slice is
passed through unchanged. -/
theorem as_bytes_big_endian :
    (∀ l : List Nat, slice_as_bytes l = l) ∧
    (∀ n, n < 2 ^ 16 → u16_as_bytes n = bigEndianBytes 2 n) ∧
    (∀ n, n < 2 ^ 32 → u32_as_bytes n = bigEndianBytes 4 n) ∧
    (∀ n, n < 2 ^ 64 → u64_as_bytes n = bigEndianBytes 8 n) ∧
    (∀ ip : Ipv4Addr, ip.a < 256 → ip.b < 256 → ip.c < 256 → ip.d < 256 →
      ip.octets = bigEndianBytes 4 ip.toNat) ∧
    (∀ ip : Ipv6Addr, (∀ o ∈ ip.octets, o < 256) →
      ip.octets = bigEndianBytes 16 ip.toNat) := by
  refine ⟨fun l => rfl, ?_, ?_, ?_, ?_, ?_⟩
  · intro n _
    rw [bigEndianBytes_two]
    simp [u16_as_bytes, Nat.shiftRight_eq_div_pow]
  · intro n _
    rw [bigEndianBytes_four]
    simp [u32_as_bytes, Nat.shiftRight_eq_div_pow]
  · intro n _
    rw [bigEndianBytes_eight]
    simp [u64_as_bytes, Nat.shiftRight_eq_div_pow]
  · intro ip ha hb hc hd
    rw [bigEndianBytes_four]
    simp [Ipv4Addr.octets, Ipv4Addr.toNat]
    omega
  · intro ip hoct
    have hlen : ip.octets.length = 16 := rfl
    have h := bigEndianBytes_ofBeBytes ip.octets hoct
    rw [hlen] at h
    have harg : ofBeBytes ip.octets = ip.toNat := by
      show ofBeBytes [ip.o0, ip.o1, ip.o2, ip.o3, ip.o4, ip.o5, ip.o6, ip.o7,
        ip.o8, ip.o9, ip.o10, ip.o11, ip.o12, ip.o13, ip.o14, ip.o15] = _
      simp only [ofBeBytes, List.length_cons, List.length_nil]
      norm_num [Ipv6Addr.toNat]
      ring
    rw [← h, harg]

theorem as_bytes_big_endian_witness :
    u16_as_bytes 258 = bigEndianBytes 2 258 ∧
    Ipv4Addr.octets ⟨127, 0, 0, 1⟩ = bigEndianBytes 4 (Ipv4Addr.toNat ⟨127, 0, 0, 1⟩) :=
  ⟨as_bytes_big_endian.2.1 258 (by decide),
   as_bytes_big_endian.2.2.2.2.1 ⟨127, 0, 0, 1⟩ (by decide) (by decide) (by decide) (by decide)⟩

/-- C8: `output_length` returns `((L / 2) * 6) - 1` for every positive even
`L`; for `L = 0` the `usize` subtraction underflows, so the result is invalid
(`none` in this model). -/
theorem output_length_formula :
    (∀ L, L % 2 = 0 → 0 < L → output_length L = some ((L / 2) * 6 - 1)) ∧
    output_length 0 = none := by
  constructor
  · intro L he hp
    unfold output_length
    rw [if_neg (by omega)]
  · rfl

theorem output_length_formula_witness :
    output_length 4 = some 11 ∧ output_length 0 = none :=
  ⟨output_length_formula.1 4 (by decide) (by decide), output_length_formula.2⟩

/-- C9: when `proquints_buf` succeeds, every byte of the returned view is a
consonant-table entry, a vowel-table entry, or the separator, hence a valid
ASCII byte (< 128) whenever the separator is ASCII — so the unchecked
byte-to-string conversion only ever sees valid UTF-8. -/
theorem encoded_bytes_ascii (input buf : List Nat) (sep : Nat) (hs : sep < 128)
    (view : List Nat) (h : proquints_buf_view input buf sep = some view) :
    ∀ b ∈ view, (b ∈ CONSONANTS ∨ b ∈ VOWELS ∨ b = sep) ∧ b < 128 := by
  unfold proquints_buf_view at h
  cases hpb : proquints_buf input buf sep with
  | fault f b =>
    rw [hpb] at h
    exact absurd h (by simp)
  | ok b2 j =>
    rw [hpb] at h
    dsimp only at h
    have hview : view = b2.take j := (Option.some.inj h).symm
    have hloop : encodeLoop sep input buf 0 = EncodeResult.ok b2 j := by
      unfold proquints_buf at hpb
      by_cases he : input.length % 2 = 0
      · rw [if_pos he] at hpb
        cases hol : output_length input.length with
        | none =>
          rw [hol] at hpb
          exact absurd hpb (by simp)
        | some ol =>
          rw [hol] at hpb
          dsimp only at hpb
          by_cases hble : buf.length ≤ ol
          · rw [if_pos hble] at hpb
            exact hpb
          · rw [if_neg hble] at hpb
            exact absurd hpb (by simp)
      · rw [if_neg he] at hpb
        exact absurd hpb (by simp)
    have inv := encodeLoop_inv sep input buf 0 b2 j hloop
    intro b hb
    subst hview
    obtain ⟨p, hp, hpe⟩ := List.mem_iff_getElem.mp hb
    have hpj : p < j := by
      simp [List.length_take] at hp
      omega
    have hpl : p < b2.length := by
      simp [List.length_take] at hp
      omega
    have hgd : b2.getD p 0 = b := by
      rw [List.getD_eq_getElem _ _ hpl, ← hpe]
      exact (List.getElem_take b2).symm
    have hcls := inv.2.2.2 p (Nat.zero_le p) hpj
    rw [hgd] at hcls
    rcases hcls with hc | hv | hsep
    · exact ⟨Or.inl hc, consonants_ascii b hc⟩
    · exact ⟨Or.inr (Or.inl hv), vowels_ascii b hv⟩
    · exact ⟨Or.inr (Or.inr hsep), by omega⟩

theorem encoded_bytes_ascii_witness :
    ((108 ∈ CONSONANTS ∨ 108 ∈ VOWELS ∨ 108 = 45) ∧ 108 < 128) :=
  encoded_bytes_ascii [127, 0, 0, 1] (List.replicate 11 0) 45 (by decide)
    (asciiBytes "lusab-babad") (by decide) 108 (by decide)

/-- C10: for an even, positive-length input, any buffer strictly longer than
`output_length(input.length)` is rejected by the entry assertion
`output_length(input.len()) >= buf.len()` — `proquints_buf` faults at the
assert, with the buffer untouched, even though the buffer has enough room. -/
theorem oversized_buffer_assert_fault (input buf : List Nat) (sep ol : Nat)
    (he : input.length % 2 = 0) (_hp : 0 < input.length)
    (hol : output_length input.length = some ol) (hb : ol < buf.length) :
    proquints_buf input buf sep = EncodeResult.fault Fault.assertFailed buf := by
  unfold proquints_buf
  rw [if_pos he, hol]
  dsimp only
  rw [if_neg (by omega)]

theorem oversized_buffer_assert_fault_witness :
    proquints_buf [0, 0] (List.replicate 6 0) 45
      = EncodeResult.fault Fault.assertFailed (List.replicate 6 0) :=
  oversized_buffer_assert_fault [0, 0] (List.replicate 6 0) 45 5
    (by decide) (by decide) (by decide) (by decide)

end Proquints
